import Mathlib

/-!
Verification of the `adaptivepool` repository (package `adaptivepool`).

The development shallowly embeds the statistics engine (`stats.go`, type
`Stats`) and the pool's accept/create policy logic (`normalAccept`,
`normalCreateSize`, the snapshot bit packing `encodeBits`/`decodeBits`, and
the `Put`/release path of `AdaptivePool`).

Modelling conventions:
* Go `float64` values are idealised as exact rationals (`ℚ`); a separate
  type `F` adjoins the IEEE-754 NaN, which the code produces (`math.NaN()`)
  and branches on (`math.IsNaN`, comparisons).  `math.FMA a b c` is the
  exact `a*b + c`.
* `math.Sqrt` is idealised by `fsqrt`, which is exact on perfect-square
  rationals (all concrete evaluations below happen at perfect squares) and
  is NaN on negative inputs, like the original.
* The reduced-precision (`float32`) snapshot of `(mean, stdDev)` published
  by the release path is idealised as exact; the bit-packing functions
  themselves are modelled separately, on 32/64-bit words as `ℕ` with
  explicit bounds.
* The repository contains several historical versions of the pool file.
  The embedding follows the final-state version (the one exercised by the
  current tests `TestNormalAccept`, `TestEncoding`, `TestStatsMaxN`):
  `Stats` from `stats.go` and the pool/policy functions from the unnamed
  source file that defines `normalAccept` with the `math.IsNaN(stdDev)`
  disjunct and `New(provider, maxN)`.
-/

/-- An idealised `float64`: either NaN or an exact rational value.
Infinities do not arise in any of the modelled computations. -/
inductive F where
  | nan : F
  | val (q : ℚ) : F
deriving DecidableEq, Repr

namespace F

/-- Multiplication; NaN propagates, as in IEEE-754. -/
def mul : F → F → F
  | val a, val b => val (a * b)
  | _, _ => nan

/-- Addition; NaN propagates. -/
def add : F → F → F
  | val a, val b => val (a + b)
  | _, _ => nan

/-- Subtraction; NaN propagates. -/
def sub : F → F → F
  | val a, val b => val (a - b)
  | _, _ => nan

/-- The Go comparison `x <= y`: false whenever either side is NaN. -/
def le : F → F → Bool
  | val a, val b => decide (a ≤ b)
  | _, _ => false

/-- Model of `math.IsNaN`. -/
def isNaN : F → Bool
  | nan => true
  | val _ => false

end F

/-- Idealised square root on `ℚ`, used to model `math.Sqrt` on non-negative
inputs.  It is exact precisely on perfect-square rationals (numerator and
denominator of the reduced fraction both perfect squares); every concrete
evaluation in the theorems below happens at such a value. -/
def ratSqrt (q : ℚ) : ℚ :=
  (Nat.sqrt q.num.toNat : ℚ) / (Nat.sqrt q.den : ℚ)

/-- Model of `math.Sqrt`: NaN on negative inputs, `ratSqrt` otherwise. -/
def fsqrt (q : ℚ) : F :=
  if q < 0 then F.nan else F.val (ratSqrt q)

/-- Model of `math.Round` (round half away from zero). -/
def roundHalfAway (q : ℚ) : ℚ :=
  if 0 ≤ q then (⌊q + 1/2⌋ : ℤ) else (⌈q - 1/2⌉ : ℤ)

/-- Go conversion `int(f)` for a rational float value: truncation toward
zero. -/
def intOfRat (q : ℚ) : ℤ :=
  if 0 ≤ q then ⌊q⌋ else ⌈q⌉

/-- The `Stats` struct of `stats.go`: `n, actualN, maxN, oldM, newM, oldS,
newS float64`. -/
structure Stats where
  n : ℚ
  actualN : ℚ
  maxN : ℚ
  oldM : ℚ
  newM : ℚ
  oldS : ℚ
  newS : ℚ
deriving DecidableEq, Repr

namespace Stats

/-- The Go zero value of `Stats`. -/
def zero : Stats := ⟨0, 0, 0, 0, 0, 0, 0⟩

/-- `func (s *Stats) Push(v float64)` from `stats.go`.  The effective count
`n` is incremented only while below the cap (or with the cap disabled);
the mean update is `math.FMA(s.oldM, s.n-1, v) / s.n` with the already
incremented `n`, and the spread accumulator update is
`math.FMA(math.Abs(v-s.oldM), math.Abs(v-s.newM), s.oldS)`. -/
def Push (s : Stats) (v : ℚ) : Stats :=
  let n := if s.n < s.maxN ∨ s.maxN < 1 then s.n + 1 else s.n
  let actualN := s.actualN + 1
  if 1 < actualN then
    let newM := (s.oldM * (n - 1) + v) / n
    let newS := |v - s.oldM| * |v - newM| + s.oldS
    { s with n := n, actualN := actualN, oldM := newM, newM := newM,
             oldS := newS, newS := newS }
  else
    { s with n := n, actualN := actualN, oldM := v, newM := v }

/-- `func (s *Stats) Reset()`: back to the zero value. -/
def Reset (_ : Stats) : Stats := zero

/-- `func (s *Stats) N() float64`. -/
def N (s : Stats) : ℚ := s.n

/-- `func (s *Stats) MaxN() float64`: `math.Round(s.maxN)`. -/
def MaxN (s : Stats) : ℚ := roundHalfAway s.maxN

/-- `func (s *Stats) SetMaxN(maxN float64)` from `stats.go`. -/
def SetMaxN (s : Stats) (maxN : ℚ) : Stats :=
  let m := if maxN < 1 then 0 else roundHalfAway maxN
  let s := { s with maxN := m }
  if 1 ≤ s.maxN ∧ s.maxN < s.n then { s with n := s.maxN } else s

/-- `func (s *Stats) Mean() float64`. -/
def Mean (s : Stats) : ℚ := s.newM

/-- `func (s *Stats) StdDev() float64`: `math.Sqrt(s.newS / s.actualN)` when
`s.actualN > 1`, `math.NaN()` otherwise. -/
def StdDev (s : Stats) : F :=
  if 1 < s.actualN then fsqrt (s.newS / s.actualN) else F.nan

/-- Pushing a whole list of values, first element first. -/
def pushList (s : Stats) (vs : List ℚ) : Stats :=
  vs.foldl Push s

/-- The spec's formula for `StdDev()`, written from the spec's words:
returns `sqrt(sumSqAccumulator / effectiveCount)` if `actualCount > 1`,
else NaN — the divisor being the capped effective count `n`. -/
def specStdDev (s : Stats) : F :=
  if 1 < s.actualN then fsqrt (s.newS / s.n) else F.nan

/-- Facts that hold in every reachable `Stats` state: the three counters are
(casts of) natural numbers, the spread accumulators are non-negative, and
the effective count respects an enabled cap. -/
def WF (s : Stats) : Prop :=
  (∃ k : ℕ, s.n = (k : ℚ)) ∧ (∃ k : ℕ, s.actualN = (k : ℚ)) ∧
    (∃ k : ℕ, s.maxN = (k : ℚ)) ∧ 0 ≤ s.oldS ∧ 0 ≤ s.newS ∧
    (1 ≤ s.maxN → s.n ≤ s.maxN)

/-- States of `Stats` reachable from the zero value by any sequence of
`Push`, `Reset` and `SetMaxN` calls. -/
inductive Reachable : Stats → Prop
  | zero : Reachable Stats.zero
  | push {s : Stats} (v : ℚ) : Reachable s → Reachable (s.Push v)
  | reset {s : Stats} : Reachable s → Reachable s.Reset
  | setMaxN {s : Stats} (m : ℚ) : Reachable s → Reachable (s.SetMaxN m)

end Stats

/-- `func normalAccept(mean, stdDev, thresh, itemSize float64) bool`:
`sdThresh := thresh * stdDev; return mean-sdThresh <= itemSize &&
itemSize <= mean+sdThresh || math.IsNaN(stdDev)`. -/
def normalAccept (mean stdDev thresh itemSize : F) : Bool :=
  let sdThresh := thresh.mul stdDev
  ((mean.sub sdThresh).le itemSize && itemSize.le (mean.add sdThresh)) ||
    stdDev.isNaN

/-- `func normalCreateSize(mean, stdDev, thresh float64) float64`: `mean`
when `stdDev` is NaN, `mean + thresh*stdDev` otherwise. -/
def normalCreateSize (mean stdDev thresh : F) : F :=
  if stdDev.isNaN then mean else mean.add (thresh.mul stdDev)

/-- `NormalSlice` provider (the `Threshold` field); the slice element type
is irrelevant to size bookkeeping. -/
structure NormalSlice where
  Threshold : ℚ

/-- `NormalSlice.Sizeof`: the length of the slice item (`nil` has length 0);
the item is represented by its length. -/
def NormalSlice.Sizeof (_ : NormalSlice) (len : ℕ) : ℚ := len

/-- `NormalSlice.Accept` delegates to `normalAccept` with the provider's
threshold. -/
def NormalSlice.Accept (p : NormalSlice) (mean stdDev itemSize : F) : Bool :=
  normalAccept mean stdDev (F.val p.Threshold) itemSize

/-- Capacity of the slice returned by `NormalSlice.Create`:
`make([]T, 0, int(normalCreateSize(mean, stdDev, p.Threshold)))`.  The
`int(·)` conversion is Go truncation toward zero; its argument is a plain
value in every modelled scenario. -/
def NormalSlice.CreateCap (p : NormalSlice) (mean stdDev : F) : ℤ :=
  match normalCreateSize mean stdDev (F.val p.Threshold) with
  | F.val q => intOfRat q
  | F.nan => 0

/-- `NormalBytesBuffer` provider (the `Threshold` field). -/
structure NormalBytesBuffer where
  Threshold : ℚ

/-- `NormalBytesBuffer.Sizeof`: 0 for a nil `*bytes.Buffer`, the buffer's
`Len` otherwise; a buffer is represented by its optional length. -/
def NormalBytesBuffer.Sizeof (_ : NormalBytesBuffer) : Option ℕ → ℚ
  | none => 0
  | some len => len

/-- `NormalBytesBuffer.Accept` delegates to `normalAccept`. -/
def NormalBytesBuffer.Accept (p : NormalBytesBuffer) (mean stdDev itemSize : F) :
    Bool :=
  normalAccept mean stdDev (F.val p.Threshold) itemSize

/-- `func encodeBits(lo, hi float32) uint64` operating on the 32-bit words
`math.Float32bits(lo)`, `math.Float32bits(hi)` (the bit patterns):
`uint64(lo) + uint64(hi)<<32`, with `uint64` wrap-around made explicit. -/
def encodeBits (lo hi : ℕ) : ℕ :=
  (lo % 2 ^ 32 + (hi % 2 ^ 32) * 2 ^ 32) % 2 ^ 64

/-- `func decodeBits(u64 uint64) (lo, hi float32)` at the bit level:
`uint32(u64 & (1<<32 - 1))` and `uint32(u64 >> 32)`. -/
def decodeBits (u64 : ℕ) : ℕ × ℕ :=
  ((u64 % 2 ^ 64) % 2 ^ 32, ((u64 % 2 ^ 64) / 2 ^ 32) % 2 ^ 32)

/-- The `AdaptivePool` of the final-state source, specialised to the
`NormalSlice`/`NormalBytesBuffer` policies (an item is represented by its
size).  `rStats` is the published `(mean, stdDev)` snapshot (source: one
`atomic.Uint64` holding the two packed `float32`s, idealised here as the
exact pair; `encodeBits`/`decodeBits` are proved mutually inverse
separately).  `putCount` counts the items handed to the inner
`sync.Pool.Put`, mirroring the repository's own `testPool` probe. -/
structure AdaptivePool where
  threshold : ℚ
  stats : Stats
  rStats : F × F
  putCount : ℕ
deriving Repr

namespace AdaptivePool

/-- `func New[T any](p PoolItemProvider[T], maxN float64) *AdaptivePool[T]`:
zero-valued stats with `SetMaxN(maxN)` applied; the zero `atomic.Uint64`
decodes to the pair `(0, 0)` of zero `float32`s. -/
def New (threshold maxN : ℚ) : AdaptivePool :=
  { threshold := threshold
    stats := Stats.zero.SetMaxN maxN
    rStats := (F.val 0, F.val 0)
    putCount := 0 }

/-- The body of `writeThenRead` composed with `Put`: push the item's size,
publish the reduced-precision snapshot, then `Accept` with the fresh values
and conditionally hand the item to the inner pool. -/
def Put (p : AdaptivePool) (size : ℚ) : AdaptivePool :=
  let stats := p.stats.Push size
  let mean := F.val stats.Mean
  let sd := stats.StdDev
  let p := { p with stats := stats, rStats := (mean, sd) }
  if normalAccept mean sd (F.val p.threshold) (F.val size) then
    { p with putCount := p.putCount + 1 }
  else
    p

/-- Releasing a whole list of item sizes, first element first. -/
def putList (p : AdaptivePool) (sizes : List ℚ) : AdaptivePool :=
  sizes.foldl Put p

/-- `func (p *AdaptivePool[T]) new() any`, the factory `sync.Pool` invokes
when `Get` finds no idle item: decode the snapshot and `Create`; for slice
items the result is characterised by its capacity. -/
def new (p : AdaptivePool) : ℤ :=
  NormalSlice.CreateCap ⟨p.threshold⟩ p.rStats.1 p.rStats.2

end AdaptivePool

/-! ### Supporting lemmas -/

/-- On a perfect square `(k : ℚ)^2` the idealised square root is exact. -/
lemma ratSqrt_natCast_sq (k : ℕ) : ratSqrt ((k : ℚ) ^ 2) = k := by
  have h : ((k : ℚ) ^ 2) = ((k ^ 2 : ℕ) : ℚ) := by push_cast; ring
  rw [h]
  unfold ratSqrt
  rw [Rat.num_natCast, Rat.den_natCast, Int.toNat_natCast, Nat.sqrt_eq',
    Nat.sqrt_one]
  simp

/-- Exactness of `fsqrt` on perfect squares, in rewriting-friendly form. -/
lemma fsqrt_eq_of_sq (q : ℚ) (k : ℕ) (h : q = (k : ℚ) ^ 2) : fsqrt q = F.val k := by
  subst h
  have h0 : ¬((k : ℚ) ^ 2 < 0) := not_lt.mpr (by positivity)
  rw [fsqrt, if_neg h0, ratSqrt_natCast_sq]

lemma ratSqrt_nonneg (q : ℚ) : 0 ≤ ratSqrt q := by
  unfold ratSqrt
  positivity

lemma roundHalfAway_ge_one {q : ℚ} (h : 1 ≤ q) : 1 ≤ roundHalfAway q := by
  rw [roundHalfAway, if_pos (by linarith)]
  have : (1 : ℤ) ≤ ⌊q + 1 / 2⌋ := Int.le_floor.mpr (by push_cast; linarith)
  exact_mod_cast this

lemma roundHalfAway_natCast {q : ℚ} (h : 1 ≤ q) :
    ∃ k : ℕ, roundHalfAway q = (k : ℚ) := by
  rw [roundHalfAway, if_pos (by linarith)]
  have h1 : (1 : ℤ) ≤ ⌊q + 1 / 2⌋ := Int.le_floor.mpr (by push_cast; linarith)
  refine ⟨⌊q + 1 / 2⌋.toNat, ?_⟩
  have h2 := Int.toNat_of_nonneg (show (0 : ℤ) ≤ ⌊q + 1 / 2⌋ by omega)
  exact_mod_cast h2.symm

/-- Unfolding of `Stats.SetMaxN` without intermediate state rebinding. -/
lemma Stats.SetMaxN_def (s : Stats) (m : ℚ) :
    s.SetMaxN m =
      (let mm := if m < 1 then 0 else roundHalfAway m
       if 1 ≤ mm ∧ mm < s.n then { s with maxN := mm, n := mm }
       else { s with maxN := mm }) := by
  rw [Stats.SetMaxN]

lemma Stats.zero_wf : Stats.zero.WF := by
  refine ⟨⟨0, rfl⟩, ⟨0, rfl⟩, ⟨0, rfl⟩, le_refl _, le_refl _, ?_⟩
  intro h
  simp [Stats.zero] at h
  linarith

lemma Stats.push_wf {s : Stats} (hs : s.WF) (v : ℚ) : (s.Push v).WF := by
  obtain ⟨⟨kn, hkn⟩, ⟨ka, hka⟩, ⟨km, hkm⟩, hos, hns, hcap⟩ := hs
  rw [Stats.Push]
  have hn : ∃ k : ℕ,
      (if s.n < s.maxN ∨ s.maxN < 1 then s.n + 1 else s.n) = (k : ℚ) := by
    split
    · exact ⟨kn + 1, by rw [hkn]; push_cast; ring⟩
    · exact ⟨kn, hkn⟩
  have hcap2 : 1 ≤ s.maxN →
      (if s.n < s.maxN ∨ s.maxN < 1 then s.n + 1 else s.n) ≤ s.maxN := by
    intro h1
    split
    case isTrue hif =>
      rcases hif with hlt | hlt
      · rw [hkn, hkm] at hlt ⊢
        exact_mod_cast Nat.succ_le_of_lt (by exact_mod_cast hlt)
      · linarith
    case isFalse hif => exact hcap h1
  obtain ⟨kn2, hkn2⟩ := hn
  split
  case isTrue h1 =>
    refine ⟨⟨kn2, hkn2⟩, ⟨ka + 1, by rw [hka]; push_cast; ring⟩, ⟨km, hkm⟩,
      ?_, ?_, hcap2⟩ <;>
      positivity
  case isFalse h1 =>
    exact ⟨⟨kn2, hkn2⟩, ⟨ka + 1, by rw [hka]; push_cast; ring⟩, ⟨km, hkm⟩,
      hos, hns, hcap2⟩

lemma Stats.setMaxN_wf {s : Stats} (hs : s.WF) (m : ℚ) : (s.SetMaxN m).WF := by
  obtain ⟨⟨kn, hkn⟩, ⟨ka, hka⟩, ⟨km, hkm⟩, hos, hns, hcap⟩ := hs
  rw [Stats.SetMaxN_def]
  simp only
  split
  case isTrue hm1 =>
    rw [if_neg (by norm_num)]
    exact ⟨⟨kn, hkn⟩, ⟨ka, hka⟩, ⟨0, by norm_num⟩, hos, hns,
      fun h => absurd h (by norm_num)⟩
  case isFalse hm1 =>
    obtain ⟨kr, hkr⟩ := roundHalfAway_natCast (le_of_not_lt hm1)
    split
    case isTrue h1 =>
      exact ⟨⟨kr, hkr⟩, ⟨ka, hka⟩, ⟨kr, hkr⟩, hos, hns, fun _ => le_refl _⟩
    case isFalse h1 =>
      refine ⟨⟨kn, hkn⟩, ⟨ka, hka⟩, ⟨kr, hkr⟩, hos, hns, fun h2 => ?_⟩
      rcases not_and_or.mp h1 with h3 | h3
      · exact absurd h2 h3
      · exact le_of_not_lt h3

/-- Every reachable state is well-formed. -/
lemma Stats.reachable_wf {s : Stats} (hs : s.Reachable) : s.WF := by
  induction hs with
  | zero => exact Stats.zero_wf
  | push v _ ih => exact Stats.push_wf ih v
  | reset _ _ => exact Stats.zero_wf
  | setMaxN m _ ih => exact Stats.setMaxN_wf ih m

/-- Characterisation of the state reached from the zero value (cap disabled,
`maxN` stored as 0) by pushing a non-empty list of values: both counters
equal the list length and the running mean is the exact arithmetic mean. -/
lemma Stats.pushList_uncapped (vs : List ℚ) :
    vs ≠ [] →
    (Stats.zero.pushList vs).n = vs.length ∧
    (Stats.zero.pushList vs).actualN = vs.length ∧
    (Stats.zero.pushList vs).maxN = 0 ∧
    (Stats.zero.pushList vs).oldM = (Stats.zero.pushList vs).newM ∧
    (Stats.zero.pushList vs).newM = vs.sum / vs.length := by
  induction vs using List.reverseRecOn with
  | nil => exact fun h => absurd rfl h
  | append_singleton l a ih =>
    intro _
    have hsplit : Stats.zero.pushList (l ++ [a]) = (Stats.zero.pushList l).Push a := by
      rw [Stats.pushList, Stats.pushList, List.foldl_append]
      rfl
    rcases eq_or_ne l [] with rfl | hl
    · rw [List.nil_append] at hsplit ⊢
      rw [hsplit]
      norm_num [Stats.pushList, Stats.Push, Stats.zero]
    · obtain ⟨h1, h2, h3, h4, h5⟩ := ih hl
      have hlpos : 0 < l.length := List.length_pos.mpr hl
      have hlq : (1 : ℚ) ≤ (l.length : ℚ) := by exact_mod_cast hlpos
      rw [hsplit, Stats.Push]
      simp only
      have hc1 : (Stats.zero.pushList l).n < (Stats.zero.pushList l).maxN ∨
          (Stats.zero.pushList l).maxN < 1 := Or.inr (by rw [h3]; norm_num)
      rw [if_pos hc1, if_pos (show (1 : ℚ) < (Stats.zero.pushList l).actualN + 1 by
        rw [h2]; linarith)]
      refine ⟨by simp [h1], by simp [h2], h3, rfl, ?_⟩
    -- the new running mean `(oldM*(n+1-1) + a) / (n+1)` equals the
    -- arithmetic mean of `l ++ [a]`
      rw [h4, h5, h1]
      have hne : (l.length : ℚ) ≠ 0 := by positivity
      simp only [List.sum_append, List.length_append, List.sum_cons,
        List.sum_nil, List.length_cons, List.length_nil]
      push_cast
      field_simp

lemma Stats.Push_maxN (s : Stats) (v : ℚ) : (s.Push v).maxN = s.maxN := by
  rw [Stats.Push]
  split <;> rfl

lemma Stats.SetMaxN_maxN_of_one_le (s : Stats) {m : ℚ} (h : 1 ≤ m) :
    (s.SetMaxN m).maxN = roundHalfAway m := by
  rw [Stats.SetMaxN_def]
  simp only [if_neg (not_lt.mpr h)]
  split <;> rfl

/-- With an enabled cap, no sequence of pushes can drive the effective
count above the cap. -/
lemma Stats.pushList_n_le_cap {t : Stats} (ht : t.WF) (h1 : 1 ≤ t.maxN)
    (vs : List ℚ) : (t.pushList vs).n ≤ t.maxN := by
  induction vs generalizing t with
  | nil => exact ht.2.2.2.2.2 h1
  | cons v vs ih =>
    have hstep : t.pushList (v :: vs) = (t.Push v).pushList vs := rfl
    rw [hstep]
    have := ih (Stats.push_wf ht v) (by rw [Stats.Push_maxN]; exact h1)
    rwa [Stats.Push_maxN] at this

namespace AdaptivePool

lemma Put_stats (p : AdaptivePool) (size : ℚ) :
    (p.Put size).stats = p.stats.Push size := by
  rw [AdaptivePool.Put]
  split <;> rfl

lemma Put_rStats (p : AdaptivePool) (size : ℚ) :
    (p.Put size).rStats =
      (F.val (p.stats.Push size).Mean, (p.stats.Push size).StdDev) := by
  rw [AdaptivePool.Put]
  split <;> rfl

lemma Put_threshold (p : AdaptivePool) (size : ℚ) :
    (p.Put size).threshold = p.threshold := by
  rw [AdaptivePool.Put]
  split <;> rfl

lemma putList_stats (p : AdaptivePool) (sizes : List ℚ) :
    (p.putList sizes).stats = p.stats.pushList sizes := by
  induction sizes generalizing p with
  | nil => rfl
  | cons v vs ih =>
    have h1 : p.putList (v :: vs) = (p.Put v).putList vs := rfl
    have h2 : p.stats.pushList (v :: vs) = (p.stats.Push v).pushList vs := rfl
    rw [h1, h2, ih, Put_stats]

lemma putList_threshold (p : AdaptivePool) (sizes : List ℚ) :
    (p.putList sizes).threshold = p.threshold := by
  induction sizes generalizing p with
  | nil => rfl
  | cons v vs ih =>
    have h1 : p.putList (v :: vs) = (p.Put v).putList vs := rfl
    rw [h1, ih, Put_threshold]

/-- The published snapshot after a final `Put` is the reduced-precision
image of the statistics after all the pushes. -/
lemma putList_append_rStats (p : AdaptivePool) (sizes : List ℚ) (a : ℚ) :
    (p.putList (sizes ++ [a])).rStats =
      (F.val (p.stats.pushList (sizes ++ [a])).Mean,
        (p.stats.pushList (sizes ++ [a])).StdDev) := by
  have h1 : p.putList (sizes ++ [a]) = (p.putList sizes).Put a := by
    rw [AdaptivePool.putList, List.foldl_append]
    rfl
  have h2 : p.stats.pushList (sizes ++ [a]) =
      (p.stats.pushList sizes).Push a := by
    rw [Stats.pushList, List.foldl_append]
    rfl
  rw [h1, h2, Put_rStats, putList_stats]

lemma New_stats (threshold : ℚ) : (AdaptivePool.New threshold 0).stats = Stats.zero := by
  rw [AdaptivePool.New]
  norm_num [Stats.SetMaxN_def, Stats.zero]

end AdaptivePool

/-! ### Claims -/

/-- C1: for every mean, threshold and itemSize, when `stdDev` is NaN (fewer
than 2 samples observed) the reference accept function `normalAccept` — as
used by `NormalSlice.Accept` and `NormalBytesBuffer.Accept` — returns true,
i.e. the released item is always accepted into the pool. -/
theorem normalAccept_nan_always_true (mean thresh itemSize : ℚ) :
    normalAccept (F.val mean) F.nan (F.val thresh) (F.val itemSize) = true ∧
    NormalSlice.Accept ⟨thresh⟩ (F.val mean) F.nan (F.val itemSize) = true ∧
    NormalBytesBuffer.Accept ⟨thresh⟩ (F.val mean) F.nan (F.val itemSize) = true := by
  refine ⟨?_, ?_, ?_⟩ <;>
    simp [normalAccept, NormalSlice.Accept, NormalBytesBuffer.Accept,
      F.mul, F.sub, F.add, F.le, F.isNaN]

/-- C5: pushing any finite non-empty sequence of values into a `Stats`
instance with the cap disabled (`maxN` stored as 0, the zero value) leaves
`Mean()` equal to the exact arithmetic mean of the sequence and `N()` equal
to its length. -/
theorem mean_eq_arithmetic_mean (vs : List ℚ) (h : vs ≠ []) :
    (Stats.zero.pushList vs).Mean = vs.sum / vs.length ∧
    (Stats.zero.pushList vs).N = vs.length := by
  obtain ⟨h1, -, -, -, h5⟩ := Stats.pushList_uncapped vs h
  exact ⟨h5, h1⟩

/-- Witness for C5 at the concrete sequence `[10, 20]`. -/
theorem mean_eq_arithmetic_mean_witness :
    (Stats.zero.pushList [10, 20]).Mean =
      ([10, 20] : List ℚ).sum / (([10, 20] : List ℚ).length : ℚ) ∧
    (Stats.zero.pushList [10, 20]).N = (([10, 20] : List ℚ).length : ℚ) :=
  mean_eq_arithmetic_mean [10, 20] (by simp)

/-- C6: the reference create function returns size `mean` when `stdDev` is
NaN and `mean + threshold*stdDev` otherwise; in particular with `mean = 42`
and `stdDev = NaN` the created slice has capacity 42 for every threshold. -/
theorem normalCreateSize_formula (mean sd thresh : ℚ) :
    normalCreateSize (F.val mean) F.nan (F.val thresh) = F.val mean ∧
    normalCreateSize (F.val mean) (F.val sd) (F.val thresh) =
      F.val (mean + thresh * sd) ∧
    NormalSlice.CreateCap ⟨thresh⟩ (F.val 42) F.nan = 42 := by
  refine ⟨?_, ?_, ?_⟩ <;>
    norm_num [normalCreateSize, NormalSlice.CreateCap, F.isNaN, F.add, F.mul,
      intOfRat]

/-- C7: for non-NaN `stdDev` the reference accept function accepts exactly
the sizes in the inclusive band `mean ± threshold*stdDev`; concretely, with
`threshold = 1, mean = 10, stdDev = 3` every size in `[7, 13]` is accepted
while `6.99` and `13.01` are rejected. -/
theorem normalAccept_iff_in_band (mean sd thresh itemSize : ℚ) :
    (normalAccept (F.val mean) (F.val sd) (F.val thresh) (F.val itemSize) = true ↔
      mean - thresh * sd ≤ itemSize ∧ itemSize ≤ mean + thresh * sd) ∧
    (∀ size : ℚ, 7 ≤ size → size ≤ 13 →
      normalAccept (F.val 10) (F.val 3) (F.val 1) (F.val size) = true) ∧
    normalAccept (F.val 10) (F.val 3) (F.val 1) (F.val (699 / 100)) = false ∧
    normalAccept (F.val 10) (F.val 3) (F.val 1) (F.val (1301 / 100)) = false := by
  refine ⟨?_, fun size h7 h13 => ?_, ?_, ?_⟩
  · simp [normalAccept, F.mul, F.sub, F.add, F.le, F.isNaN]
  · simp only [normalAccept, F.mul, F.sub, F.add, F.le, F.isNaN,
      Bool.or_false, Bool.and_eq_true, decide_eq_true_eq]
    constructor <;> linarith
  · norm_num [normalAccept, F.mul, F.sub, F.add, F.le, F.isNaN]
  · norm_num [normalAccept, F.mul, F.sub, F.add, F.le, F.isNaN]

/-- Witness for C7 at the concrete boundary size 13. -/
theorem normalAccept_iff_in_band_witness :
    normalAccept (F.val 10) (F.val 3) (F.val 1) (F.val 13) = true :=
  (normalAccept_iff_in_band 10 3 1 13).2.1 13 (by norm_num) (by norm_num)

/-- C9: the snapshot bit-packing functions are mutually inverse on 32-bit
words and 64-bit words respectively (`math.Float32bits` /
`math.Float32frombits` are bit-pattern identities, so the functions are
modelled on the packed words themselves). -/
theorem encodeBits_decodeBits_inverse (lo hi u : ℕ) (hlo : lo < 2 ^ 32)
    (hhi : hi < 2 ^ 32) (hu : u < 2 ^ 64) :
    decodeBits (encodeBits lo hi) = (lo, hi) ∧
    encodeBits (decodeBits u).1 (decodeBits u).2 = u := by
  unfold encodeBits decodeBits
  have h32 : (2 : ℕ) ^ 32 = 4294967296 := by norm_num
  have h64 : (2 : ℕ) ^ 64 = 18446744073709551616 := by norm_num
  simp only [h32, h64] at hlo hhi hu ⊢
  refine ⟨?_, ?_⟩
  · simp only [Prod.mk.injEq]
    constructor <;> omega
  · omega

/-- Witness for C9 at the test vector `42<<32 + 42` and the pair `(42, 7)`. -/
theorem encodeBits_decodeBits_inverse_witness :
    decodeBits (encodeBits 42 7) = (42, 7) ∧
    encodeBits (decodeBits 180388626474).1 (decodeBits 180388626474).2 =
      180388626474 :=
  ⟨(encodeBits_decodeBits_inverse 42 7 0 (by norm_num) (by norm_num)
      (by norm_num)).1,
    (encodeBits_decodeBits_inverse 0 0 180388626474 (by norm_num) (by norm_num)
      (by norm_num)).2⟩

/-- C10: in every reachable `Stats` state the sum-of-squared-deviations
accumulator is non-negative, and whenever `StdDev()` is defined
(`actualN > 1`) it is a non-negative value, never NaN. -/
theorem stdDev_defined_nonneg (s : Stats) (hs : s.Reachable) :
    0 ≤ s.newS ∧
    (1 < s.actualN → ∃ q : ℚ, s.StdDev = F.val q ∧ 0 ≤ q ∧ s.StdDev ≠ F.nan) := by
  obtain ⟨-, -, -, -, hns, -⟩ := Stats.reachable_wf hs
  refine ⟨hns, fun h => ?_⟩
  rw [Stats.StdDev, if_pos h]
  have hq : 0 ≤ s.newS / s.actualN := div_nonneg hns (by linarith)
  rw [fsqrt, if_neg (not_lt.mpr hq)]
  exact ⟨_, rfl, ratSqrt_nonneg _, by simp⟩

/-- Witness for C10 at the reachable state obtained by pushing 0 twice. -/
theorem stdDev_defined_nonneg_witness :
    0 ≤ ((Stats.zero.Push 0).Push 0).newS ∧
    ∃ q : ℚ, ((Stats.zero.Push 0).Push 0).StdDev = F.val q ∧ 0 ≤ q := by
  have h := stdDev_defined_nonneg ((Stats.zero.Push 0).Push 0)
    ((Stats.Reachable.zero.push 0).push 0)
  obtain ⟨q, hq1, hq2, -⟩ := h.2 (by norm_num [Stats.Push, Stats.zero])
  exact ⟨h.1, q, hq1, hq2⟩

/-- C3 (counterexample): a reachable capped state in which the source's
`StdDev()` (divisor `actualN`, the raw lifetime count) differs from the
spec's formula `sqrt(sumSqAccumulator / effectiveCount)` (divisor `n`, the
capped count).  With `SetMaxN(2)` and pushes `0, 4, 2, 2, 2, 2, 2, 2` the
state has `n = 2`, `actualN = 8`, `newS = 8`: the code returns
`sqrt(8/8) = 1`, the spec's formula gives `sqrt(8/2) = 2`. -/
theorem stdDev_spec_divisor_counterexample :
    ((Stats.zero.SetMaxN 2).pushList [0, 4, 2, 2, 2, 2, 2, 2]).Reachable ∧
    ((Stats.zero.SetMaxN 2).pushList [0, 4, 2, 2, 2, 2, 2, 2]).StdDev = F.val 1 ∧
    ((Stats.zero.SetMaxN 2).pushList [0, 4, 2, 2, 2, 2, 2, 2]).specStdDev = F.val 2 ∧
    ((Stats.zero.SetMaxN 2).pushList [0, 4, 2, 2, 2, 2, 2, 2]).StdDev ≠
      ((Stats.zero.SetMaxN 2).pushList [0, 4, 2, 2, 2, 2, 2, 2]).specStdDev := by
  have hstate : (Stats.zero.SetMaxN 2).pushList [0, 4, 2, 2, 2, 2, 2, 2] =
      { n := 2, actualN := 8, maxN := 2, oldM := 2, newM := 2,
        oldS := 8, newS := 8 } := by
    norm_num [Stats.pushList, List.foldl, Stats.Push, Stats.SetMaxN_def,
      Stats.zero, roundHalfAway, Stats.mk.injEq]
  have hre : ((Stats.zero.SetMaxN 2).pushList [0, 4, 2, 2, 2, 2, 2, 2]).Reachable :=
    (((((((((Stats.Reachable.zero.setMaxN 2).push 0).push 4).push 2).push
      2).push 2).push 2).push 2).push 2)
  have hsd : ((Stats.zero.SetMaxN 2).pushList [0, 4, 2, 2, 2, 2, 2, 2]).StdDev =
      F.val 1 := by
    rw [hstate, Stats.StdDev, if_pos (by norm_num)]
    exact fsqrt_eq_of_sq _ 1 (by norm_num)
  have hspec : ((Stats.zero.SetMaxN 2).pushList [0, 4, 2, 2, 2, 2, 2, 2]).specStdDev =
      F.val 2 := by
    rw [hstate, Stats.specStdDev, if_pos (by norm_num)]
    exact fsqrt_eq_of_sq _ 2 (by norm_num)
  refine ⟨hre, hsd, hspec, ?_⟩
  rw [hsd, hspec]
  simp

/-- C3 (amended): `StdDev()` returns `fsqrt(sumSqAccumulator / actualCount)`
— the divisor is the raw lifetime push count `actualN`, not the capped
effective count — when `actualN > 1`, and NaN when `actualN ≤ 1`. -/
theorem stdDev_formula_actual_count (s : Stats) :
    (1 < s.actualN → s.StdDev = fsqrt (s.newS / s.actualN)) ∧
    (s.actualN ≤ 1 → s.StdDev = F.nan) := by
  constructor <;> intro h
  · rw [Stats.StdDev, if_pos h]
  · rw [Stats.StdDev, if_neg (not_lt.mpr h)]

/-- Witness for the amended C3 at the state reached by pushing 1 then 3. -/
theorem stdDev_formula_actual_count_witness :
    ((Stats.zero.Push 1).Push 3).StdDev =
      fsqrt (((Stats.zero.Push 1).Push 3).newS /
        ((Stats.zero.Push 1).Push 3).actualN) :=
  (stdDev_formula_actual_count _).1 (by norm_num [Stats.Push, Stats.zero])

/-- C4 (counterexample): with the non-integer cap `m = 3/2`, `SetMaxN`
stores `round(3/2) = 2`, so `N()` climbs to 2 and exceeds `m`; likewise a
state with `N() = 2` stays at 2 > 3/2 immediately after `SetMaxN(3/2)`. -/
theorem setMaxN_noninteger_cap_counterexample :
    (3 / 2 : ℚ) < (((Stats.zero.SetMaxN (3 / 2)).Push 0).Push 0).n ∧
    (3 / 2 : ℚ) < (((Stats.zero.Push 0).Push 0).SetMaxN (3 / 2)).n := by
  constructor <;>
    norm_num [Stats.SetMaxN_def, Stats.Push, Stats.zero, roundHalfAway]

/-- C4 (amended): for every reachable state and every cap `m ≥ 1`, right
after `SetMaxN(m)` the effective count `N()` is at most `round(m)` (in
particular it is truncated if it was above), and it never exceeds
`round(m)` under any subsequent sequence of pushes. -/
theorem n_le_rounded_cap_after_setMaxN (s : Stats) (hs : s.Reachable) (m : ℚ)
    (hm : 1 ≤ m) (vs : List ℚ) :
    (s.SetMaxN m).n ≤ roundHalfAway m ∧
    ((s.SetMaxN m).pushList vs).n ≤ roundHalfAway m := by
  have hwf := Stats.setMaxN_wf (Stats.reachable_wf hs) m
  have hmax : (s.SetMaxN m).maxN = roundHalfAway m :=
    Stats.SetMaxN_maxN_of_one_le s hm
  have h1 : 1 ≤ (s.SetMaxN m).maxN := by
    rw [hmax]
    exact roundHalfAway_ge_one hm
  constructor
  · rw [← hmax]
    exact hwf.2.2.2.2.2 h1
  · rw [← hmax]
    exact Stats.pushList_n_le_cap hwf h1 vs

/-- Witness for the amended C4: cap 3/2 set after four pushes, two more
pushes afterwards; the effective count stays at most `round(3/2) = 2`. -/
theorem n_le_rounded_cap_after_setMaxN_witness :
    (((((Stats.zero.Push 1).Push 1).Push 1).Push 1).SetMaxN (3 / 2)).n ≤
      roundHalfAway (3 / 2) ∧
    ((((((Stats.zero.Push 1).Push 1).Push 1).Push 1).SetMaxN
      (3 / 2)).pushList [5, 5]).n ≤ roundHalfAway (3 / 2) :=
  n_le_rounded_cap_after_setMaxN _
    ((((Stats.Reachable.zero.push 1).push 1).push 1).push 1) (3 / 2)
    (by norm_num) [5, 5]

/-- C2 (divergence witness): releasing the nil sentinel item is NOT a no-op
in the source.  `Sizeof(nil)` is 0, and `Put`/`Release` unconditionally
pushes that 0 into the statistics — `N()` becomes 1 — and, `stdDev` being
NaN after this single sample, the accept policy even hands the nil item to
the inner `sync.Pool` (`putCount` becomes 1).  The spec and the
repository's own test (`assertPut(nil, true)` then
`assertStats(0, 0, NaN)`) require a complete no-op instead. -/
theorem put_nil_sentinel_changes_stats :
    NormalBytesBuffer.Sizeof ⟨1⟩ none = 0 ∧
    ((AdaptivePool.New 1 0).Put (NormalBytesBuffer.Sizeof ⟨1⟩ none)).stats.N = 1 ∧
    ((AdaptivePool.New 1 0).Put (NormalBytesBuffer.Sizeof ⟨1⟩ none)).putCount = 1 := by
  have h0 : NormalBytesBuffer.Sizeof ⟨1⟩ none = 0 := rfl
  have hsd : ((AdaptivePool.New 1 0).stats.Push 0).StdDev = F.nan := by
    rw [AdaptivePool.New_stats]
    norm_num [Stats.Push, Stats.zero, Stats.StdDev]
  refine ⟨h0, ?_, ?_⟩
  · rw [h0, AdaptivePool.Put_stats, AdaptivePool.New_stats]
    norm_num [Stats.Push, Stats.zero, Stats.N]
  · rw [h0, AdaptivePool.Put]
    simp only [hsd]
    simp [normalAccept, F.mul, F.sub, F.add, F.le, F.isNaN, AdaptivePool.New]

/-- C8: releasing items of sizes 10, 10, 10, 20, 20, 20 into a fresh
uncapped pool with `threshold = 1` leaves `Mean() = 15` exactly, and the
factory invoked by the next acquire on an empty inner pool creates an item
pre-sized to `15 + 1·stdDev = 20` (`stdDev = 5`). -/
theorem end_to_end_ramp_scenario :
    ((AdaptivePool.New 1 0).putList [10, 10, 10, 20, 20, 20]).stats.Mean = 15 ∧
    ((AdaptivePool.New 1 0).putList [10, 10, 10, 20, 20, 20]).new = 20 := by
  have hfinal : Stats.zero.pushList [10, 10, 10, 20, 20, 20] =
      { n := 6, actualN := 6, maxN := 0, oldM := 15, newM := 15,
        oldS := 150, newS := 150 } := by
    norm_num [Stats.pushList, List.foldl, Stats.Push, Stats.zero,
      Stats.mk.injEq, abs_of_nonneg]
  have hr : ((AdaptivePool.New 1 0).putList [10, 10, 10, 20, 20, 20]).rStats =
      (F.val 15, F.val 5) := by
    have h := AdaptivePool.putList_append_rStats (AdaptivePool.New 1 0)
      [10, 10, 10, 20, 20] 20
    rw [show ([10, 10, 10, 20, 20] ++ [20] : List ℚ) =
      [10, 10, 10, 20, 20, 20] from rfl] at h
    rw [h, AdaptivePool.New_stats, hfinal]
    have hsd : (Stats.mk 6 6 0 15 15 150 150).StdDev = F.val 5 := by
      rw [Stats.StdDev, if_pos (by norm_num)]
      exact fsqrt_eq_of_sq _ 5 (by norm_num)
    rw [hsd]
    rfl
  constructor
  · rw [AdaptivePool.putList_stats, AdaptivePool.New_stats, hfinal]
    rfl
  · rw [AdaptivePool.new, hr, AdaptivePool.putList_threshold]
    norm_num [NormalSlice.CreateCap, normalCreateSize, F.isNaN, F.add, F.mul,
      intOfRat, AdaptivePool.New]
